import Mathlib

/-!
Verification of the Neighbor-Joining tree builder
(`backend-python/algorithms/neighbor_joining.py`).

Shallow embedding conventions:
* `numpy` float64 matrices are modelled as total functions `ℕ → ℕ → ℚ`
  together with an explicit size `n`; entries outside the active `n × n`
  window are `0`, matching the `np.zeros` initialisation of every matrix
  the code builds.  Exact rational arithmetic stands in for float64; every
  formula of the source is a field expression, so the claims are about the
  formulas, not about rounding.
* `np.inf` written onto the diagonal by `find_minimum_q` is modelled by
  `WithTop ℚ`, whose `⊤` compares exactly like `inf` under `<`.
* Python exceptions are modelled by `Except String`.
* The `self.nodes` dict maps `str(k)` for naturals `k` to tree nodes and,
  after `build_nj_tree` only, the extra key `"root"`.  Since `str(k)` is
  never the string `"root"`, the dict is modelled as the node trees held in
  the active list plus a separate `rootStored : Option TreeNode` slot that
  stands for the `"root"` key.
-/

set_option maxRecDepth 100000

deriving instance DecidableEq for Except

/-- Matrices: total functions on ℕ × ℕ with an explicit side length. -/
abbrev Mat := ℕ → ℕ → ℚ

/-- Row sum `np.sum(dist_matrix[i, :])` over a row of length `n`. -/
def rowSum (D : Mat) (n i : ℕ) : ℚ :=
  ((List.range n).map (fun m => D i m)).sum

/-- Embedding of `NeighborJoining.calculate_q_matrix`.
For `n ≤ 2` the input matrix is returned unchanged.  Otherwise the code
fills, for every `i < j`, both `q[i,j]` and `q[j,i]` with
`(n-2)*D[i,j] - row_sums[i] - row_sums[j]` (so an off-diagonal entry always
reads the upper-triangle distance `D (min i j) (max i j)`), leaving the
diagonal at its `np.zeros_like` value `0`. -/
def calculate_q_matrix (D : Mat) (n : ℕ) : Mat :=
  if n ≤ 2 then D
  else fun i j =>
    if i < n ∧ j < n ∧ i ≠ j then
      ((n : ℚ) - 2) * D (min i j) (max i j) - rowSum D n i - rowSum D n j
    else 0

/-- Value of the Q matrix after `np.fill_diagonal(q_matrix, np.inf)`, read
at flat (row-major) index `idx`: `⊤` on the diagonal, the matrix entry
elsewhere. -/
def qval (q : Mat) (n idx : ℕ) : WithTop ℚ :=
  if idx / n = idx % n then ⊤ else ((q (idx / n) (idx % n) : ℚ) : WithTop ℚ)

/-- First-occurrence argmin: the fold keeps the earlier index on ties,
which is exactly the semantics of `np.argmin` over the flattened array. -/
def argmin_flat (q : Mat) (n : ℕ) : ℕ :=
  (List.range (n * n)).foldl
    (fun best idx => if qval q n idx < qval q n best then idx else best) 0

/-- Embedding of `NeighborJoining.find_minimum_q`: `divmod` of the flat
argmin, the pair swapped so that the first component is the smaller. -/
def find_minimum_q (q : Mat) (n : ℕ) : ℕ × ℕ :=
  let idx := argmin_flat q n
  let mi := idx / n
  let mj := idx % n
  if mj < mi then (mj, mi) else (mi, mj)

/-- Embedding of `NeighborJoining.calculate_branch_lengths`. -/
def calculate_branch_lengths (D : Mat) (i j n : ℕ) : ℚ × ℚ :=
  if n ≤ 2 then (D i j / 2, D i j / 2)
  else
    let dij := D i j
    let sumi := rowSum D n i
    let sumj := rowSum D n j
    let vi := 0.5 * dij + (sumi - sumj) / (2 * ((n : ℚ) - 2))
    let vj := dij - vi
    (max 0 vi, max 0 vj)

/-- Embedding of `NeighborJoining.update_distance_matrix`.  New coordinates
`a, b < n-1` are mapped back to the old coordinates (`j` is the removed
index), ordered as the loop orders them (`old_i < old_j`), and the merge
formula is applied exactly when the smaller old coordinate equals `i` —
faithfully reproducing that a pair whose larger old coordinate is `i` is
copied unchanged. -/
def update_distance_matrix (D : Mat) (i j n : ℕ) : Mat := fun a b =>
  if a < n - 1 ∧ b < n - 1 ∧ a ≠ b then
    let oa := if a < j then a else a + 1
    let ob := if b < j then b else b + 1
    let lo := min oa ob
    let hi := max oa ob
    if lo = i then 0.5 * (D i hi + D j hi - D i j) else D lo hi
  else 0

/-- Tree nodes (`TreeNode` dataclass).  `distance_to_parent` is the third
field; `is_leaf` the last. -/
inductive TreeNode : Type where
  | mk (id : String) (label : String) (distance_to_parent : ℚ)
      (children : List TreeNode) (is_leaf : Bool)

instance : Inhabited TreeNode := ⟨.mk "" "" 0 [] true⟩

def TreeNode.nodeId : TreeNode → String
  | .mk i _ _ _ _ => i

def TreeNode.label : TreeNode → String
  | .mk _ l _ _ _ => l

def TreeNode.dist : TreeNode → ℚ
  | .mk _ _ d _ _ => d

def TreeNode.children : TreeNode → List TreeNode
  | .mk _ _ _ c _ => c

def TreeNode.isLeaf : TreeNode → Bool
  | .mk _ _ _ _ f => f

/-- Setting `node.distance_to_parent = v`. -/
def TreeNode.setDist : TreeNode → ℚ → TreeNode
  | .mk i l _ c f, v => .mk i l v c f

mutual

/-- Labels of the `is_leaf` nodes of a subtree, in left-to-right order. -/
def leafLabels : TreeNode → List String
  | .mk _ l _ cs lf => (if lf then [l] else []) ++ leafLabelsL cs

def leafLabelsL : List TreeNode → List String
  | [] => []
  | t :: ts => leafLabels t ++ leafLabelsL ts

end

mutual

/-- Number of `is_leaf` nodes of a subtree. -/
def countLeaves : TreeNode → ℕ
  | .mk _ _ _ cs lf => (if lf then 1 else 0) + countLeavesL cs

def countLeavesL : List TreeNode → ℕ
  | [] => 0
  | t :: ts => countLeaves t + countLeavesL ts

end

mutual

/-- Number of internal (non-leaf) nodes of a subtree. -/
def countInternal : TreeNode → ℕ
  | .mk _ _ _ cs lf => (if lf then 0 else 1) + countInternalL cs

def countInternalL : List TreeNode → ℕ
  | [] => 0
  | t :: ts => countInternal t + countInternalL ts

end

/-- Fixed 6-decimal rendering of a rational, modelling `f"{x:.6f}"`. -/
def format6 (x : ℚ) : String :=
  let neg : Bool := decide (x < 0)
  let scaled : ℤ := Rat.floor (|x| * 1000000 + 1 / 2)
  let nn : ℕ := scaled.toNat
  let ip := nn / 1000000
  let fp := nn % 1000000
  let fs := toString fp
  let pad := String.mk (List.replicate (6 - fs.length) '0')
  (if neg then "-" else "") ++ toString ip ++ "." ++ pad ++ fs

mutual

/-- Embedding of `TreeNode.to_newick`. -/
def to_newick : TreeNode → String
  | .mk _ l d _ true => l ++ ":" ++ format6 d
  | .mk _ _ d cs false => "(" ++ newickChildren cs ++ "):" ++ format6 d

def newickChildren : List TreeNode → String
  | [] => ""
  | [t] => to_newick t
  | t :: t' :: ts => to_newick t ++ "," ++ newickChildren (t' :: ts)

end

/-- State of a `NeighborJoining` instance during `run`: the working matrix
and its size, the subtrees of the active nodes (in active-index order), the
next internal-node id, the iteration counter, and the `"root"` slot of the
`nodes` dict (never written by `run` itself). -/
structure NJState where
  mat : Mat
  size : ℕ
  active : List TreeNode
  nextId : ℕ
  iterations : ℕ
  rootStored : Option TreeNode

/-- State straight after `NeighborJoining.__init__` plus the first lines of
`run`: leaves `0 .. n-1`, the input matrix, zero iterations. -/
def initState (D : Mat) (labels : List String) : NJState :=
  { mat := D
    size := labels.length
    active := (List.range labels.length).map
      (fun i => TreeNode.mk (toString i) (labels.getD i "") 0 [] true)
    nextId := labels.length
    iterations := 0
    rootStored := none }

/-- One iteration of the `while n > 3` loop body of `NeighborJoining.run`. -/
def njStep (st : NJState) : NJState :=
  let k := st.size
  let q := calculate_q_matrix st.mat k
  let p := find_minimum_q q k
  let i := p.1
  let j := p.2
  let v := calculate_branch_lengths st.mat i j k
  let node_i := (st.active.getD i default).setDist v.1
  let node_j := (st.active.getD j default).setDist v.2
  let newNode : TreeNode :=
    .mk (toString st.nextId) ("Node_" ++ toString st.nextId) 0 [node_i, node_j] false
  { mat := update_distance_matrix st.mat i j k
    size := k - 1
    active := (st.active.set i newNode).eraseIdx j
    nextId := st.nextId + 1
    iterations := st.iterations + 1
    rootStored := st.rootStored }

/-- `t` guarded iterations of the loop: the body runs only while the
current size exceeds 3, exactly as `while n > 3`. -/
def loopState (st : NJState) : ℕ → NJState
  | 0 => st
  | t + 1 =>
    let s := loopState st t
    if 3 < s.size then njStep s else s

/-- Embedding of `NeighborJoining._connect_final_nodes`. -/
def connect_final_nodes (mat : Mat) (active : List TreeNode) : Except String TreeNode :=
  if active.length = 3 then
    let d01 := mat 0 1
    let d02 := mat 0 2
    let d12 := mat 1 2
    let a := (active.getD 0 default).setDist (max 0 (0.5 * (d01 + d02 - d12)))
    let b := (active.getD 1 default).setDist (max 0 (0.5 * (d01 + d12 - d02)))
    let c := (active.getD 2 default).setDist (max 0 (0.5 * (d02 + d12 - d01)))
    .ok (.mk "root" "root" 0 [a, b, c] false)
  else .error ("Expected 3 nodes, got " ++ toString active.length)

/-- Final `NeighborJoining` instance state after `run` returns (or raises):
`run` mutates the matrix/active list only through the loop, and
`_connect_final_nodes` touches neither the dict nor the loop state. -/
def runFinalState (D : Mat) (labels : List String) : NJState :=
  loopState (initState D labels) labels.length

/-- Embedding of `NeighborJoining.run`: loop to (at most) 3 active nodes,
then connect them; returns the root together with `self.iterations`. -/
def njRun (D : Mat) (labels : List String) : Except String (TreeNode × ℕ) :=
  let st := runFinalState D labels
  (connect_final_nodes st.mat st.active).map (fun r => (r, st.iterations))

/-- Embedding of `NeighborJoining.get_newick`: fails unless the `"root"`
slot of the nodes dict has been filled. -/
def get_newick (st : NJState) : Except String String :=
  match st.rootStored with
  | none => .error "Tree not yet constructed. Call run() first."
  | some root => .ok ("(" ++ newickChildren root.children ++ ");")

/-- Matrix view of a Python list-of-lists (`np.array` of a well-formed
nested list); out-of-range reads are 0. -/
def toMat (D : List (List ℚ)) : Mat := fun i j => (D.getD i []).getD j 0

/-- Squareness of the nested list: every row as long as the list itself
(`dist_array.shape[0] == dist_array.shape[1]`; a ragged list already fails
`np.array` conversion, likewise an error). -/
def isSquareB (D : List (List ℚ)) : Bool :=
  D.all (fun row => row.length == D.length)

/-- Elementwise `np.allclose(dist_array, dist_array.T)` with the numpy
defaults `rtol = 1e-5`, `atol = 1e-8`:
`|a - b| ≤ atol + rtol * |b|` for every entry of the `n × n` window. -/
def allcloseSymB (M : Mat) (n : ℕ) : Bool :=
  (List.range n).all (fun i => (List.range n).all (fun j =>
    decide (|M i j - M j i| ≤ 1 / 100000000 + (1 / 100000) * |M j i|)))

/-- The symmetry-repair step of `build_nj_tree`: keep the matrix when it is
`allclose` to its transpose, otherwise average the two triangles; the
Boolean records whether the advisory warning was logged. -/
def symmetrize_step (M : Mat) (n : ℕ) : Mat × Bool :=
  if allcloseSymB M n then (M, false)
  else (fun i j => (M i j + M j i) / 2, true)

/-- Result dictionary of `build_nj_tree` (tree, newick, statistics), plus
the advisory-warning flag of the symmetry repair. -/
structure BuildResult where
  tree : TreeNode
  newick : String
  n_taxa : ℕ
  iterations : ℕ
  symmetrized : Bool

/-- Embedding of `build_nj_tree`: validate squareness and label count,
repair asymmetry, run the algorithm, store the root in the `"root"` slot
and serialize via `get_newick`. -/
def build_nj_tree (D : List (List ℚ)) (labels : List String) : Except String BuildResult :=
  if isSquareB D = false then .error "Distance matrix must be square"
  else if labels.length ≠ D.length then
    .error "Number of labels must match matrix dimension"
  else
    let M := (symmetrize_step (toMat D) D.length).1
    let noted := (symmetrize_step (toMat D) D.length).2
    let st := runFinalState M labels
    match connect_final_nodes st.mat st.active with
    | .error e => .error e
    | .ok root =>
      match get_newick { st with rootStored := some root } with
      | .error e => .error e
      | .ok nw =>
        .ok { tree := root, newick := nw, n_taxa := labels.length
              iterations := st.iterations, symmetrized := noted }

/-! ## Spec-side definitions and shared helper lemmas -/

/-- Raw (unclamped) branch length `v_i` of section 4.3 of the spec. -/
def rawBranchI (D : Mat) (i j n : ℕ) : ℚ :=
  0.5 * D i j + (rowSum D n i - rowSum D n j) / (2 * ((n : ℚ) - 2))

/-- Symmetry-with-zero-diagonal invariant of the working matrix. -/
def SymZero (M : Mat) (k : ℕ) : Prop :=
  ∀ i < k, ∀ j < k, M i j = M j i ∧ M i i = 0

instance (M : Mat) (k : ℕ) : Decidable (SymZero M k) := by
  unfold SymZero; infer_instance

/-- The contracted matrix is symmetric with zero diagonal by construction:
both mirror entries are written from the same ordered old pair, and the
diagonal is never written. -/
theorem update_symzero (D : Mat) (i j n : ℕ) :
    SymZero (update_distance_matrix D i j n) (n - 1) := by
  intro a _ b _
  constructor
  · by_cases hab : a = b
    · rw [hab]
    · unfold update_distance_matrix
      by_cases ha : a < n - 1 <;> by_cases hb : b < n - 1 <;>
        simp [ha, hb, hab, Ne.symm hab, min_comm, max_comm]
  · unfold update_distance_matrix
    simp

theorem symzero_loop (st : NJState) (h : SymZero st.mat st.size) :
    ∀ t, SymZero (loopState st t).mat (loopState st t).size := by
  intro t
  induction t with
  | zero => exact h
  | succ t ih =>
    simp only [loopState]
    by_cases h3 : 3 < (loopState st t).size
    · simp only [if_pos h3]
      exact update_symzero _ _ _ _
    · simp only [if_neg h3]
      exact ih

/-! ## Concrete matrices used by witnesses and counterexamples -/

/-- Fixed 4×4 example matrix of the spec (section 8). -/
def exampleD4 : List (List ℚ) :=
  [[0, 1/5, 2/5, 3/5], [1/5, 0, 1/2, 7/10], [2/5, 1/2, 0, 3/10], [3/5, 7/10, 3/10, 0]]

/-- A 5×5 symmetric matrix whose unique minimal Q-score is at the pair
(1, 2), so the first merge has `i = 1 > 0` and survivor 0 sits below `i`. -/
def staleD5 : List (List ℚ) :=
  [[0, 13, 13, 4, 5], [13, 0, 22, 15, 16], [13, 22, 0, 15, 16],
   [4, 15, 15, 0, 6], [5, 16, 16, 6, 0]]

/-! ## C1: Q-matrix formula -/

/-- C1: for current size `n > 2` and any pair `i < j < n`, both mirror
entries of the computed Q matrix equal `(n-2)·D(i,j) − R(i) − R(j)`, with
the row sums `R` taken over the very matrix `D` passed in (the run passes
the current contracted matrix, so row sums are recomputed each iteration,
never carried over). -/
theorem claim1_q_matrix_formula (D : Mat) (n : ℕ) (hn : 2 < n)
    (i j : ℕ) (hij : i < j) (hj : j < n) :
    calculate_q_matrix D n i j
        = ((n : ℚ) - 2) * D i j - rowSum D n i - rowSum D n j ∧
    calculate_q_matrix D n j i
        = ((n : ℚ) - 2) * D i j - rowSum D n i - rowSum D n j := by
  have hi : i < n := lt_trans hij hj
  unfold calculate_q_matrix
  rw [if_neg (by omega)]
  constructor
  · rw [if_pos ⟨hi, hj, Nat.ne_of_lt hij⟩,
      min_eq_left (le_of_lt hij), max_eq_right (le_of_lt hij)]
  · rw [if_pos ⟨hj, hi, (Nat.ne_of_lt hij).symm⟩,
      min_comm, min_eq_left (le_of_lt hij), max_comm, max_eq_right (le_of_lt hij)]
    ring

theorem claim1_q_matrix_formula_w :
    (2 < 4 ∧ (0 : ℕ) < 1 ∧ 1 < 4) ∧
    calculate_q_matrix (toMat exampleD4) 4 0 1
        = ((4 : ℚ) - 2) * toMat exampleD4 0 1
            - rowSum (toMat exampleD4) 4 0 - rowSum (toMat exampleD4) 4 1 := by
  exact ⟨by omega,
    (claim1_q_matrix_formula (toMat exampleD4) 4 (by omega) 0 1 (by omega) (by omega)).1⟩

/-! ## C4: branch-length formulas and clamping -/

/-- C4: for `n > 2` the two computed branch lengths are
`max 0 v_i` and `max 0 (D(i,j) − v_i)` where `v_i` is the raw (unclamped)
first value; both results are nonnegative, and a negative raw value is
clamped to exactly 0 rather than kept or turned into an error. -/
theorem claim4_branch_lengths (D : Mat) (i j n : ℕ) (hn : 2 < n) :
    calculate_branch_lengths D i j n
        = (max 0 (rawBranchI D i j n), max 0 (D i j - rawBranchI D i j n)) ∧
    0 ≤ (calculate_branch_lengths D i j n).1 ∧
    0 ≤ (calculate_branch_lengths D i j n).2 ∧
    (rawBranchI D i j n < 0 → (calculate_branch_lengths D i j n).1 = 0) ∧
    (D i j - rawBranchI D i j n < 0 → (calculate_branch_lengths D i j n).2 = 0) := by
  have he : calculate_branch_lengths D i j n
      = (max 0 (rawBranchI D i j n), max 0 (D i j - rawBranchI D i j n)) := by
    unfold calculate_branch_lengths rawBranchI
    rw [if_neg (by omega)]
  refine ⟨he, ?_, ?_, ?_, ?_⟩
  · rw [he]; exact le_max_left 0 _
  · rw [he]; exact le_max_left 0 _
  · intro hneg; rw [he]; exact max_eq_left (le_of_lt hneg)
  · intro hneg; rw [he]; exact max_eq_left (le_of_lt hneg)

theorem claim4_branch_lengths_w :
    (2 < 5) ∧
    calculate_branch_lengths (toMat staleD5) 1 2 5
        = (max 0 (rawBranchI (toMat staleD5) 1 2 5),
           max 0 (toMat staleD5 1 2 - rawBranchI (toMat staleD5) 1 2 5)) := by
  exact ⟨by omega, (claim4_branch_lengths (toMat staleD5) 1 2 5 (by omega)).1⟩

/-! ## C9: symmetry invariant across iterations -/

/-- C9: if the initial matrix is symmetric with zero diagonal, then after
any number of guarded loop iterations the working matrix of the run is
still symmetric with zero diagonal (on its current size). -/
theorem claim9_symmetry_invariant (D : Mat) (labels : List String)
    (h : SymZero D labels.length) :
    ∀ t, SymZero (loopState (initState D labels) t).mat
      (loopState (initState D labels) t).size := by
  exact symzero_loop (initState D labels) h

theorem claim9_symmetry_invariant_w :
    SymZero (toMat exampleD4) 4 ∧
    SymZero (loopState (initState (toMat exampleD4) ["A", "B", "C", "D"]) 1).mat
      (loopState (initState (toMat exampleD4) ["A", "B", "C", "D"]) 1).size := by
  have hs : SymZero (toMat exampleD4) 4 := by with_unfolding_all decide
  exact ⟨hs, claim9_symmetry_invariant (toMat exampleD4) ["A", "B", "C", "D"] hs 1⟩

/-! ## C2: the contraction leaves stale distances below the merged slot -/

/-- C2 (refutation): on `staleD5` the first merge selects the pair
(1, 2); the contracted entry between survivor 0 and the merged node at
slot 1 is required by the claim to be
`0.5·(D(1,0) + D(2,0) − D(1,2)) = 2`, but the code copies the old
`D(0,1) = 13` unchanged. -/
theorem claim2_stale_contraction :
    find_minimum_q (calculate_q_matrix (toMat staleD5) 5) 5 = (1, 2) ∧
    update_distance_matrix (toMat staleD5) 1 2 5 0 1 = 13 ∧
    0.5 * (toMat staleD5 1 0 + toMat staleD5 2 0 - toMat staleD5 1 2) = 2 ∧
    (13 : ℚ) ≠ 2 := by
  refine ⟨?_, ?_, ?_, ?_⟩ <;> with_unfolding_all decide

/-! ## C3: first-occurrence argmin machinery -/

/-- Generic left fold keeping the first element of `a :: l` attaining the
minimum of `f` (strict improvement only, as `np.argmin`). -/
def foldArgmin {α β : Type} [LinearOrder β] (f : α → β) (a : α) (l : List α) : α :=
  l.foldl (fun b x => if f x < f b then x else b) a

theorem foldArgmin_cons {α β : Type} [LinearOrder β] (f : α → β) (a x : α) (l : List α) :
    foldArgmin f a (x :: l) = foldArgmin f (if f x < f a then x else a) l := rfl

theorem foldArgmin_le {α β : Type} [LinearOrder β] (f : α → β) (a : α) (l : List α) :
    f (foldArgmin f a l) ≤ f a ∧ ∀ x ∈ l, f (foldArgmin f a l) ≤ f x := by
  induction l generalizing a with
  | nil => exact ⟨le_refl _, by simp⟩
  | cons x l ih =>
    rw [foldArgmin_cons]
    by_cases hc : f x < f a
    · rw [if_pos hc]
      rcases ih x with ⟨h1, h2⟩
      refine ⟨le_trans h1 (le_of_lt hc), fun y hy => ?_⟩
      rcases List.mem_cons.mp hy with rfl | hy
      · exact h1
      · exact h2 y hy
    · rw [if_neg hc]
      rcases ih a with ⟨h1, h2⟩
      refine ⟨h1, fun y hy => ?_⟩
      rcases List.mem_cons.mp hy with rfl | hy
      · exact le_trans h1 (le_of_not_lt hc)
      · exact h2 y hy

theorem foldArgmin_mem {α β : Type} [LinearOrder β] (f : α → β) (a : α) (l : List α) :
    foldArgmin f a l ∈ a :: l := by
  induction l generalizing a with
  | nil => simp [foldArgmin]
  | cons x l ih =>
    rw [foldArgmin_cons]
    by_cases hc : f x < f a
    · rw [if_pos hc]
      rcases List.mem_cons.mp (ih x) with h | h
      · rw [h]; simp
      · simp [h]
    · rw [if_neg hc]
      rcases List.mem_cons.mp (ih a) with h | h
      · rw [h]; simp
      · simp [h]

theorem find?_cons_true {α : Type} (p : α → Bool) (a : α) (l : List α) (h : p a = true) :
    (a :: l).find? p = some a := by simp [List.find?, h]

theorem find?_cons_false {α : Type} (p : α → Bool) (a : α) (l : List α) (h : p a = false) :
    (a :: l).find? p = l.find? p := by simp [List.find?, h]

theorem foldArgmin_find {α β : Type} [LinearOrder β] (f : α → β) (a : α) (l : List α) :
    (a :: l).find? (fun x => decide (f x ≤ f (foldArgmin f a l)))
      = some (foldArgmin f a l) := by
  induction l generalizing a with
  | nil => simp [foldArgmin, List.find?]
  | cons x l ih =>
    rw [foldArgmin_cons]
    by_cases hc : f x < f a
    · rw [if_pos hc]
      have hle := (foldArgmin_le f x l).1
      have hpa : (fun y => decide (f y ≤ f (foldArgmin f x l))) a = false := by
        simp only [decide_eq_false_iff_not]
        exact not_le_of_lt (lt_of_le_of_lt hle hc)
      rw [find?_cons_false (fun y => decide (f y ≤ f (foldArgmin f x l))) a (x :: l) hpa]
      exact ih x
    · rw [if_neg hc]
      by_cases hpa : f a ≤ f (foldArgmin f a l)
      · have h1 : (fun y => decide (f y ≤ f (foldArgmin f a l))) a = true := by
          simp [hpa]
        rw [find?_cons_true (fun y => decide (f y ≤ f (foldArgmin f a l))) a (x :: l) h1]
        have h0 := ih a
        rw [find?_cons_true (fun y => decide (f y ≤ f (foldArgmin f a l))) a l h1] at h0
        exact h0
      · have h1 : (fun y => decide (f y ≤ f (foldArgmin f a l))) a = false := by
          simp [hpa]
        have h2 : (fun y => decide (f y ≤ f (foldArgmin f a l))) x = false := by
          simp only [decide_eq_false_iff_not]
          intro hxle
          exact hpa (le_trans (le_of_not_lt hc) hxle)
        rw [find?_cons_false (fun y => decide (f y ≤ f (foldArgmin f a l))) a (x :: l) h1,
          find?_cons_false (fun y => decide (f y ≤ f (foldArgmin f a l))) x l h2]
        have h0 := ih a
        rw [find?_cons_false (fun y => decide (f y ≤ f (foldArgmin f a l))) a l h1] at h0
        exact h0

theorem foldArgmin_congr_of_eq {α β : Type} [LinearOrder β] (f g : α → β) :
    ∀ (a : α) (l : List α), (∀ x ∈ a :: l, f x = g x) →
      foldArgmin f a l = foldArgmin g a l := by
  intro a l
  induction l generalizing a with
  | nil => intro _; rfl
  | cons x l ih =>
    intro h
    rw [foldArgmin_cons, foldArgmin_cons]
    have hx : f x = g x := h x (by simp)
    have ha : f a = g a := h a (by simp)
    by_cases hc : f x < f a
    · rw [if_pos hc, if_pos (by rw [← hx, ← ha]; exact hc)]
      exact ih x (fun y hy => h y (by
        rcases List.mem_cons.mp hy with rfl | hy
        · simp
        · simp [hy]))
    · rw [if_neg hc, if_neg (by rw [← hx, ← ha]; exact hc)]
      exact ih a (fun y hy => h y (by
        rcases List.mem_cons.mp hy with rfl | hy
        · simp
        · simp [hy]))

theorem foldArgmin_coe_withTop {α : Type} (f : α → ℚ) :
    ∀ (a : α) (l : List α),
      foldArgmin (fun x => ((f x : ℚ) : WithTop ℚ)) a l = foldArgmin f a l := by
  intro a l
  induction l generalizing a with
  | nil => rfl
  | cons x l ih =>
    rw [foldArgmin_cons, foldArgmin_cons]
    by_cases hc : f x < f a
    · rw [if_pos hc, if_pos (WithTop.coe_lt_coe.mpr hc)]
      exact ih x
    · rw [if_neg hc, if_neg (fun h => hc (WithTop.coe_lt_coe.mp h))]
      exact ih a

/-- Row-major flat position of a pair. -/
def encodePair (n : ℕ) (p : ℕ × ℕ) : ℕ := p.1 * n + p.2

/-- All pairs (i, j) with i < j < n, in row-major scan order. -/
def pairList (n : ℕ) : List (ℕ × ℕ) :=
  ((List.range n).map (fun i =>
    ((List.range n).filter (fun j => decide (i < j))).map (fun j => (i, j)))).flatten

/-- Spec-side selection rule of section 4.2: scan the pairs `i < j` in
row-major order and keep the first strict minimum of the Q score. -/
def lexFirstMinQ (q : Mat) (n : ℕ) : ℕ × ℕ :=
  match pairList n with
  | [] => (0, 0)
  | p :: ps => foldArgmin (fun r => q r.1 r.2) p ps

theorem mem_pairList {n : ℕ} {p : ℕ × ℕ} :
    p ∈ pairList n ↔ p.1 < p.2 ∧ p.2 < n := by
  rcases p with ⟨a, b⟩
  unfold pairList
  rw [List.mem_flatten]
  constructor
  · rintro ⟨l, hl, hp⟩
    rw [List.mem_map] at hl
    obtain ⟨i, _, rfl⟩ := hl
    rw [List.mem_map] at hp
    obtain ⟨j, hj, hpe⟩ := hp
    rw [List.mem_filter, List.mem_range] at hj
    cases hpe
    exact ⟨of_decide_eq_true hj.2, hj.1⟩
  · rintro ⟨hab, hbn⟩
    refine ⟨((List.range n).filter (fun j => decide (a < j))).map (fun j => (a, j)), ?_, ?_⟩
    · rw [List.mem_map]
      exact ⟨a, List.mem_range.mpr (lt_trans hab hbn), rfl⟩
    · rw [List.mem_map]
      exact ⟨b, List.mem_filter.mpr ⟨List.mem_range.mpr hbn, decide_eq_true hab⟩, rfl⟩

theorem cross_mul_le {a b m : ℕ} (h : a ≤ b) : a * (m + 1) + b ≤ b * (m + 1) + a := by
  have h1 : a * m ≤ b * m := Nat.mul_le_mul_right m h
  calc a * (m + 1) + b = a * m + (a + b) := by ring
    _ ≤ b * m + (a + b) := Nat.add_le_add_right h1 (a + b)
    _ = b * (m + 1) + a := by ring

theorem pairList_sorted (n : ℕ) :
    List.Pairwise (fun p r : ℕ × ℕ => encodePair n p < encodePair n r) (pairList n) := by
  unfold pairList
  rw [List.pairwise_flatten]
  constructor
  · intro l hl
    rw [List.mem_map] at hl
    obtain ⟨i, _, rfl⟩ := hl
    rw [List.pairwise_map]
    have hpw : List.Pairwise (fun a b : ℕ => a < b)
        ((List.range n).filter (fun j => decide (i < j))) :=
      List.Pairwise.sublist (List.filter_sublist _) (List.pairwise_lt_range n)
    refine hpw.imp ?_
    intro a b hab
    simpa [encodePair] using hab
  · rw [List.pairwise_map]
    refine (List.pairwise_lt_range n).imp ?_
    intro i1 i2 h x hx y hy
    rw [List.mem_map] at hx hy
    obtain ⟨j1, hj1, rfl⟩ := hx
    obtain ⟨j2, _, rfl⟩ := hy
    have hj1n : j1 < n := List.mem_range.mp (List.mem_filter.mp hj1).1
    show i1 * n + j1 < i2 * n + j2
    calc i1 * n + j1 < i1 * n + n := by omega
      _ = (i1 + 1) * n := by ring
      _ ≤ i2 * n := Nat.mul_le_mul_right n h
      _ ≤ i2 * n + j2 := Nat.le_add_right _ _

theorem find?_dup_head {α : Type} (p : α → Bool) (a : α) (l : List α) :
    (a :: a :: l).find? p = (a :: l).find? p := by
  cases hpa : p a
  · rw [find?_cons_false p a (a :: l) hpa, find?_cons_false p a l hpa]
  · rw [find?_cons_true p a (a :: l) hpa, find?_cons_true p a l hpa]

theorem find?_range_earlier {m b : ℕ} {p : ℕ → Bool}
    (h : (List.range m).find? p = some b) : ∀ y, y < b → p y = false := by
  rw [List.find?_eq_some] at h
  obtain ⟨hpb, as, bs, heq, hfail⟩ := h
  intro y hy
  have hbm : b < m := by
    rw [← List.mem_range, heq]
    exact List.mem_append_right _ (List.mem_cons_self _ _)
  have hym : y ∈ List.range m := List.mem_range.mpr (by omega)
  rw [heq] at hym
  rcases List.mem_append.mp hym with hyas | hybs
  · simpa using hfail y hyas
  · exfalso
    have hpw := List.pairwise_lt_range m
    rw [heq, List.pairwise_append] at hpw
    rcases List.mem_cons.mp hybs with rfl | hybs'
    · omega
    · have hby : b < y := (List.pairwise_cons.mp hpw.2.1).1 y hybs'
      omega

theorem find?_of_decomp {α : Type} (p : α → Bool) (as bs : List α) (c : α)
    (hfail : ∀ x ∈ as, p x = false) (hc : p c = true) :
    (as ++ c :: bs).find? p = some c := by
  induction as with
  | nil => exact find?_cons_true p c bs hc
  | cons x xs ih =>
    rw [List.cons_append, find?_cons_false p x _ (hfail x (by simp))]
    exact ih (fun y hy => hfail y (by simp [hy]))

theorem qval_encode (q : Mat) (n : ℕ) {i j : ℕ} (hij : i ≠ j) (hj : j < n) :
    qval q n (i * n + j) = ((q i j : ℚ) : WithTop ℚ) := by
  have hn : 0 < n := lt_of_le_of_lt (Nat.zero_le j) hj
  have hdiv : (i * n + j) / n = i := by
    rw [mul_comm, Nat.mul_add_div hn, Nat.div_eq_of_lt hj, Nat.add_zero]
  have hmod : (i * n + j) % n = j := by
    rw [mul_comm, Nat.mul_add_mod, Nat.mod_eq_of_lt hj]
  unfold qval
  rw [hdiv, hmod, if_neg hij]

theorem q_matrix_symm (D : Mat) {n : ℕ} (hn : 2 < n) (i j : ℕ) :
    calculate_q_matrix D n i j = calculate_q_matrix D n j i := by
  unfold calculate_q_matrix
  rw [if_neg (by omega)]
  by_cases h : i < n ∧ j < n ∧ i ≠ j
  · rw [if_pos h, if_pos ⟨h.2.1, h.1, h.2.2.symm⟩, min_comm, max_comm]
    ring
  · rw [if_neg h, if_neg (by rintro ⟨hj, hi, hne⟩; exact h ⟨hi, hj, hne.symm⟩)]

theorem argmin_flat_spec (q : Mat) (n : ℕ) (hn : 0 < n) :
    argmin_flat q n < n * n ∧
    (∀ y ∈ List.range (n * n), qval q n (argmin_flat q n) ≤ qval q n y) ∧
    (List.range (n * n)).find?
        (fun y => decide (qval q n y ≤ qval q n (argmin_flat q n)))
      = some (argmin_flat q n) := by
  have hA : foldArgmin (qval q n) 0 (List.range (n * n)) = argmin_flat q n := rfl
  have hpos : 0 < n * n := Nat.mul_pos hn hn
  refine ⟨?_, ?_, ?_⟩
  · have hmem := foldArgmin_mem (qval q n) 0 (List.range (n * n))
    rw [hA] at hmem
    rcases List.mem_cons.mp hmem with h | h
    · omega
    · exact List.mem_range.mp h
  · have hle := (foldArgmin_le (qval q n) 0 (List.range (n * n))).2
    rw [hA] at hle
    exact hle
  · have h0 := foldArgmin_find (qval q n) 0 (List.range (n * n))
    rw [hA] at h0
    obtain ⟨m, hm⟩ : ∃ m, n * n = m + 1 := ⟨n * n - 1, by omega⟩
    rw [hm, List.range_succ_eq_map] at h0 ⊢
    rw [find?_dup_head] at h0
    exact h0


/-- Core refinement: on any symmetric matrix, the flat `np.argmin` scan of
`find_minimum_q` selects exactly the first minimum of the row-major scan of
the pairs `i < j`, and the returned components satisfy `i < j < n`. -/
theorem find_minimum_first_row_major (q : Mat) (n : ℕ) (hn : 2 < n)
    (hsymm : ∀ i j, q i j = q j i) :
    find_minimum_q q n = lexFirstMinQ q n ∧
    (find_minimum_q q n).1 < (find_minimum_q q n).2 ∧
    (find_minimum_q q n).2 < n := by
  have hn0 : 0 < n := by omega
  obtain ⟨hR1lt, hminflat, hfindflat⟩ := argmin_flat_spec q n hn0
  have hnn1 : 1 < n * n := by
    have h9 : 3 * 3 ≤ n * n := Nat.mul_le_mul (by omega) (by omega)
    omega
  have hF1 : qval q n 1 = ((q 0 1 : ℚ) : WithTop ℚ) := by
    have h01 : (0 : ℕ) * n + 1 = 1 := by omega
    conv_lhs => rw [← h01]
    exact @qval_encode q n 0 1 (by omega) (by omega)
  have hMlt : qval q n (argmin_flat q n) < ⊤ := by
    refine lt_of_le_of_lt (hminflat 1 (List.mem_range.mpr hnn1)) ?_
    rw [hF1]
    exact WithTop.coe_lt_top _
  have hin : argmin_flat q n / n < n := (Nat.div_lt_iff_lt_mul hn0).mpr hR1lt
  have hjn : argmin_flat q n % n < n := Nat.mod_lt _ hn0
  have hij : argmin_flat q n / n ≠ argmin_flat q n % n := by
    intro h
    have htop : qval q n (argmin_flat q n) = ⊤ := by
      unfold qval
      rw [if_pos h]
    rw [htop] at hMlt
    exact lt_irrefl _ hMlt
  have hR1eq : argmin_flat q n = (argmin_flat q n / n) * n + argmin_flat q n % n := by
    rw [mul_comm]
    exact (Nat.div_add_mod _ n).symm
  have hFR1 : qval q n (argmin_flat q n)
      = ((q (argmin_flat q n / n) (argmin_flat q n % n) : ℚ) : WithTop ℚ) := by
    conv_lhs => rw [hR1eq]
    exact qval_encode q n hij hjn
  have hab : min (argmin_flat q n / n) (argmin_flat q n % n)
      < max (argmin_flat q n / n) (argmin_flat q n % n) := min_lt_max.mpr hij
  have hbn : max (argmin_flat q n / n) (argmin_flat q n % n) < n := max_lt hin hjn
  have hqab : q (min (argmin_flat q n / n) (argmin_flat q n % n))
        (max (argmin_flat q n / n) (argmin_flat q n % n))
      = q (argmin_flat q n / n) (argmin_flat q n % n) := by
    rcases lt_or_gt_of_ne hij with h | h
    · rw [min_eq_left h.le, max_eq_right h.le]
    · rw [min_eq_right h.le, max_eq_left h.le]
      exact hsymm _ _
  have hencab : encodePair n
        (min (argmin_flat q n / n) (argmin_flat q n % n),
         max (argmin_flat q n / n) (argmin_flat q n % n)) ≤ argmin_flat q n := by
    rcases lt_or_gt_of_ne hij with h | h
    · show min (argmin_flat q n / n) (argmin_flat q n % n) * n
          + max (argmin_flat q n / n) (argmin_flat q n % n) ≤ argmin_flat q n
      rw [min_eq_left h.le, max_eq_right h.le]
      omega
    · show min (argmin_flat q n / n) (argmin_flat q n % n) * n
          + max (argmin_flat q n / n) (argmin_flat q n % n) ≤ argmin_flat q n
      rw [min_eq_right h.le, max_eq_left h.le]
      obtain ⟨m, rfl⟩ : ∃ m, n = m + 1 := ⟨n - 1, by omega⟩
      have := cross_mul_le (m := m) h.le
      omega
  have hfenc : qval q n (encodePair n
        (min (argmin_flat q n / n) (argmin_flat q n % n),
         max (argmin_flat q n / n) (argmin_flat q n % n)))
      = qval q n (argmin_flat q n) := by
    show qval q n (min (argmin_flat q n / n) (argmin_flat q n % n) * n
        + max (argmin_flat q n / n) (argmin_flat q n % n)) = _
    rw [qval_encode q n (ne_of_lt hab) hbn, hqab, hFR1]
  -- the pair scan
  have h01mem : ((0, 1) : ℕ × ℕ) ∈ pairList n := mem_pairList.mpr ⟨by omega, by omega⟩
  cases hpl : pairList n with
  | nil =>
    rw [hpl] at h01mem
    simp at h01mem
  | cons p0 ps =>
    have hlex : lexFirstMinQ q n
        = foldArgmin (fun r : ℕ × ℕ => qval q n (encodePair n r)) p0 ps := by
      unfold lexFirstMinQ
      rw [hpl]
      show foldArgmin (fun r : ℕ × ℕ => q r.1 r.2) p0 ps = _
      rw [← foldArgmin_coe_withTop (fun r : ℕ × ℕ => q r.1 r.2) p0 ps]
      apply foldArgmin_congr_of_eq
      intro x hx
      have hxmem : x ∈ pairList n := by rw [hpl]; exact hx
      obtain ⟨hx1, hx2⟩ := mem_pairList.mp hxmem
      exact (@qval_encode q n x.1 x.2 (ne_of_lt hx1) hx2).symm
    have hleP := foldArgmin_le (fun r : ℕ × ℕ => qval q n (encodePair n r)) p0 ps
    have hmemR2 : foldArgmin (fun r : ℕ × ℕ => qval q n (encodePair n r)) p0 ps
        ∈ pairList n := by
      rw [hpl]
      exact foldArgmin_mem _ p0 ps
    have hfind2 := foldArgmin_find (fun r : ℕ × ℕ => qval q n (encodePair n r)) p0 ps
    rw [← hpl] at hfind2
    set R2 := foldArgmin (fun r : ℕ × ℕ => qval q n (encodePair n r)) p0 ps with hR2def
    obtain ⟨hR21, hR22⟩ := mem_pairList.mp hmemR2
    have hminP : ∀ x ∈ pairList n,
        qval q n (encodePair n R2) ≤ qval q n (encodePair n x) := by
      intro x hx
      rw [hpl] at hx
      rcases List.mem_cons.mp hx with rfl | hx
      · exact hleP.1
      · exact hleP.2 x hx
    have hM12 : qval q n (encodePair n R2) = qval q n (argmin_flat q n) := by
      apply le_antisymm
      · exact le_trans (hminP _ ((@mem_pairList n (min (argmin_flat q n / n) (argmin_flat q n % n), max (argmin_flat q n / n) (argmin_flat q n % n))).mpr ⟨hab, hbn⟩)) (le_of_eq hfenc)
      · have h1n : R2.1 + 1 ≤ n := by omega
        have hencR2lt : encodePair n R2 < n * n := by
          show R2.1 * n + R2.2 < n * n
          calc R2.1 * n + R2.2 < R2.1 * n + n := by omega
            _ = (R2.1 + 1) * n := by ring
            _ ≤ n * n := Nat.mul_le_mul_right n h1n
        exact hminflat _ (List.mem_range.mpr hencR2lt)
    obtain ⟨as, bs, hdecomp⟩ := List.append_of_mem ((@mem_pairList n (min (argmin_flat q n / n) (argmin_flat q n % n), max (argmin_flat q n / n) (argmin_flat q n % n))).mpr ⟨hab, hbn⟩)
    have hfailas : ∀ x ∈ as,
        (fun x => decide (qval q n (encodePair n x) ≤ qval q n (encodePair n R2))) x
          = false := by
      intro x hxas
      have hpw := pairList_sorted n
      rw [hdecomp, List.pairwise_append] at hpw
      have hlt := hpw.2.2 x hxas _ (List.mem_cons_self _ _)
      have hltR1 : encodePair n x < argmin_flat q n := lt_of_lt_of_le hlt hencab
      have hflat := find?_range_earlier hfindflat (encodePair n x) hltR1
      simp only [decide_eq_false_iff_not] at hflat ⊢
      rw [hM12]
      exact hflat
    have hok : (fun x => decide (qval q n (encodePair n x) ≤ qval q n (encodePair n R2)))
        (min (argmin_flat q n / n) (argmin_flat q n % n),
         max (argmin_flat q n / n) (argmin_flat q n % n)) = true := by
      simp only [decide_eq_true_eq]
      rw [hM12]
      exact le_of_eq hfenc
    have hconstr := find?_of_decomp
      (fun x => decide (qval q n (encodePair n x) ≤ qval q n (encodePair n R2)))
      as bs _ hfailas hok
    rw [← hdecomp] at hconstr
    have heq2 : R2 = (min (argmin_flat q n / n) (argmin_flat q n % n),
        max (argmin_flat q n / n) (argmin_flat q n % n)) :=
      Option.some.inj (hfind2.symm.trans hconstr)
    have hfm : find_minimum_q q n
        = (min (argmin_flat q n / n) (argmin_flat q n % n),
           max (argmin_flat q n / n) (argmin_flat q n % n)) := by
      show (if argmin_flat q n % n < argmin_flat q n / n
        then (argmin_flat q n % n, argmin_flat q n / n)
        else (argmin_flat q n / n, argmin_flat q n % n)) = _
      rcases lt_or_gt_of_ne hij with h | h
      · rw [if_neg (by omega), min_eq_left h.le, max_eq_right h.le]
      · rw [if_pos h, min_eq_right h.le, max_eq_left h.le]
    refine ⟨?_, ?_, ?_⟩
    · rw [hfm, hlex, heq2]
    · rw [hfm]
      exact hab
    · rw [hfm]
      exact hbn

/-- C3: for every Q matrix computed at size `n > 2`, the selected pair is
the first minimum of the row-major scan of the pairs `i < j` (ties go to
the lexicographically first pair), and the result satisfies `i < j`. -/
theorem claim3_tie_break (D : Mat) (n : ℕ) (hn : 2 < n) :
    find_minimum_q (calculate_q_matrix D n) n
        = lexFirstMinQ (calculate_q_matrix D n) n ∧
    (find_minimum_q (calculate_q_matrix D n) n).1
        < (find_minimum_q (calculate_q_matrix D n) n).2 := by
  have h := find_minimum_first_row_major (calculate_q_matrix D n) n hn (q_matrix_symm D hn)
  exact ⟨h.1, h.2.1⟩

theorem claim3_tie_break_w :
    (2 < 4) ∧
    find_minimum_q (calculate_q_matrix (toMat exampleD4) 4) 4
        = lexFirstMinQ (calculate_q_matrix (toMat exampleD4) 4) 4 ∧
    find_minimum_q (calculate_q_matrix (toMat exampleD4) 4) 4 = (0, 1) := by
  refine ⟨by omega, (claim3_tie_break (toMat exampleD4) 4 (by omega)).1, ?_⟩
  with_unfolding_all decide

/-! ## Loop invariant machinery for the run (C5, C6, C8) -/

theorem leafLabels_setDist (t : TreeNode) (v : ℚ) :
    leafLabels (t.setDist v) = leafLabels t := by
  cases t
  rfl

theorem countInternal_setDist (t : TreeNode) (v : ℚ) :
    countInternal (t.setDist v) = countInternal t := by
  cases t
  rfl

theorem leafLabelsL_append (l l' : List TreeNode) :
    leafLabelsL (l ++ l') = leafLabelsL l ++ leafLabelsL l' := by
  induction l with
  | nil => rfl
  | cons t ts ih =>
    show leafLabels t ++ leafLabelsL (ts ++ l') = (leafLabels t ++ leafLabelsL ts) ++ leafLabelsL l'
    rw [ih, List.append_assoc]

theorem countInternalL_append (l l' : List TreeNode) :
    countInternalL (l ++ l') = countInternalL l + countInternalL l' := by
  induction l with
  | nil => simp [countInternalL]
  | cons t ts ih =>
    show countInternal t + countInternalL (ts ++ l')
        = countInternal t + countInternalL ts + countInternalL l'
    rw [ih]
    omega

mutual

theorem countLeaves_len : ∀ t : TreeNode, countLeaves t = (leafLabels t).length
  | .mk _ l _ cs lf => by
    cases lf <;> simp [countLeaves, leafLabels, countLeavesL_len cs]
    omega

theorem countLeavesL_len : ∀ l : List TreeNode, countLeavesL l = (leafLabelsL l).length
  | [] => rfl
  | t :: ts => by
    show countLeaves t + countLeavesL ts = (leafLabels t ++ leafLabelsL ts).length
    rw [List.length_append, countLeaves_len t, countLeavesL_len ts]

end

theorem list_split_at {α : Type} [Inhabited α] :
    ∀ (l : List α) (j : ℕ), j < l.length →
      ∃ l2 l3, l = l2 ++ l.getD j default :: l3 ∧ l2.length = j ∧
        l.eraseIdx j = l2 ++ l3 := by
  intro l
  induction l with
  | nil => intro j h; simp at h
  | cons a t ih =>
    intro j h
    cases j with
    | zero => exact ⟨[], t, by simp, rfl, by simp⟩
    | succ j' =>
      have h' : j' < t.length := by simpa using h
      obtain ⟨l2, l3, he, hl, her⟩ := ih j' h'
      refine ⟨a :: l2, l3, ?_, by simp [hl], ?_⟩
      · rw [List.getD_cons_succ, List.cons_append, ← he]
      · show a :: t.eraseIdx j' = (a :: l2) ++ l3
        rw [her, List.cons_append]

theorem list_set_erase_split {α : Type} [Inhabited α] :
    ∀ (l : List α) (i j : ℕ) (x : α), i < j → j < l.length →
      ∃ l1 l2 l3,
        l = l1 ++ l.getD i default :: (l2 ++ l.getD j default :: l3) ∧
        l1.length = i ∧
        (l.set i x).eraseIdx j = l1 ++ x :: (l2 ++ l3) := by
  intro l
  induction l with
  | nil => intro i j x hij hj; simp at hj
  | cons a t ih =>
    intro i j x hij hj
    cases i with
    | zero =>
      obtain ⟨j', rfl⟩ : ∃ j', j = j' + 1 := ⟨j - 1, by omega⟩
      have hj' : j' < t.length := by simpa using hj
      obtain ⟨l2, l3, he, _, her⟩ := list_split_at t j' hj'
      refine ⟨[], l2, l3, ?_, rfl, ?_⟩
      · show a :: t = [] ++ (a :: (l2 ++ t.getD j' default :: l3))
        rw [List.nil_append, ← he]
      · show ((a :: t).set 0 x).eraseIdx (j' + 1) = [] ++ x :: (l2 ++ l3)
        show x :: t.eraseIdx j' = [] ++ x :: (l2 ++ l3)
        rw [her, List.nil_append]
    | succ i' =>
      obtain ⟨j', rfl⟩ : ∃ j', j = j' + 1 := ⟨j - 1, by omega⟩
      have hij' : i' < j' := by omega
      have hj' : j' < t.length := by simpa using hj
      obtain ⟨l1, l2, l3, he, hl, her⟩ := ih i' j' x hij' hj'
      refine ⟨a :: l1, l2, l3, ?_, by simp [hl], ?_⟩
      · rw [List.getD_cons_succ, List.getD_cons_succ, List.cons_append, ← he]
      · show a :: (t.set i' x).eraseIdx j' = (a :: l1) ++ x :: (l2 ++ l3)
        rw [her, List.cons_append]

theorem leafLabelsL_cons (t : TreeNode) (ts : List TreeNode) :
    leafLabelsL (t :: ts) = leafLabels t ++ leafLabelsL ts := rfl

theorem countInternalL_cons (t : TreeNode) (ts : List TreeNode) :
    countInternalL (t :: ts) = countInternal t + countInternalL ts := rfl

theorem perm_shift {α : Type} (u v w : List α) :
    List.Perm (u ++ (v ++ w)) (v ++ (u ++ w)) := by
  have h1 : u ++ (v ++ w) = (u ++ v) ++ w := (List.append_assoc u v w).symm
  have h3 : (v ++ u) ++ w = v ++ (u ++ w) := List.append_assoc v u w
  rw [h1, ← h3]
  exact List.Perm.append_right w List.perm_append_comm

theorem njStep_shape (st : NJState) (h3 : 3 < st.size)
    (hlen : st.active.length = st.size) :
    (njStep st).size = st.size - 1 ∧
    (njStep st).active.length = st.size - 1 ∧
    List.Perm (leafLabelsL (njStep st).active) (leafLabelsL st.active) ∧
    countInternalL (njStep st).active = countInternalL st.active + 1 ∧
    (njStep st).iterations = st.iterations + 1 ∧
    (njStep st).rootStored = st.rootStored := by
  have hb := find_minimum_first_row_major (calculate_q_matrix st.mat st.size) st.size
    (by omega) (q_matrix_symm st.mat (by omega))
  set p := find_minimum_q (calculate_q_matrix st.mat st.size) st.size with hp
  have hij : p.1 < p.2 := hb.2.1
  have hj : p.2 < st.active.length := by rw [hlen]; exact hb.2.2
  set A := st.active.getD p.1 default with hA
  set B := st.active.getD p.2 default with hB
  set v := calculate_branch_lengths st.mat p.1 p.2 st.size with hv
  set N : TreeNode := TreeNode.mk (toString st.nextId) ("Node_" ++ toString st.nextId) 0
    [A.setDist v.1, B.setDist v.2] false with hN
  have hstep : (njStep st).active = (st.active.set p.1 N).eraseIdx p.2 := rfl
  obtain ⟨l1, l2, l3, hdecomp, hl1, hnew⟩ := list_set_erase_split st.active p.1 p.2 N hij hj
  rw [← hA, ← hB] at hdecomp
  have hact : (njStep st).active = l1 ++ N :: (l2 ++ l3) := by rw [hstep, hnew]
  have hlensum : st.size = l1.length + (l2.length + l3.length) + 2 := by
    have hc := congrArg List.length hdecomp
    rw [hlen] at hc
    simp [List.length_append] at hc
    omega
  have hLN : leafLabels N = leafLabels A ++ leafLabels B := by
    rw [hN]
    show ([] ++ leafLabelsL [A.setDist v.1, B.setDist v.2]) = _
    show [] ++ (leafLabels (A.setDist v.1) ++ (leafLabels (B.setDist v.2) ++ [])) = _
    rw [leafLabels_setDist, leafLabels_setDist, List.nil_append, List.append_nil]
  have hCN : countInternal N = 1 + countInternal A + countInternal B := by
    rw [hN]
    show (1 + (countInternal (A.setDist v.1) + (countInternal (B.setDist v.2) + 0))) = _
    rw [countInternal_setDist, countInternal_setDist]
    omega
  refine ⟨rfl, ?_, ?_, ?_, rfl, rfl⟩
  · rw [hact]
    simp [List.length_append]
    omega
  · rw [hact, hdecomp]
    simp only [leafLabelsL_append, leafLabelsL_cons, hLN]
    refine List.Perm.append_left _ ?_
    rw [List.append_assoc]
    refine List.Perm.append_left _ ?_
    exact perm_shift _ _ _
  · rw [hact, hdecomp]
    simp only [countInternalL_append, countInternalL_cons, hCN]
    omega

theorem map_getD_range (l : List String) :
    (List.range l.length).map (fun i => l.getD i "") = l := by
  induction l with
  | nil => rfl
  | cons a t ih =>
    show (List.range (t.length + 1)).map (fun i => (a :: t).getD i "") = a :: t
    rw [List.range_succ_eq_map, List.map_cons, List.map_map]
    have hcomp : ((fun i => (a :: t).getD i "") ∘ Nat.succ) = fun i => t.getD i "" := by
      funext i
      simp [Function.comp, List.getD_cons_succ]
    rw [hcomp]
    simpa using ih

theorem leafLabelsL_map_leaf (labels : List String) (s : List ℕ) :
    leafLabelsL (s.map (fun i => TreeNode.mk (toString i) (labels.getD i "") 0 [] true))
      = s.map (fun i => labels.getD i "") := by
  induction s with
  | nil => rfl
  | cons a t ih =>
    show ([labels.getD a ""] ++ []) ++ _ = _
    rw [ih]
    rfl

theorem countInternalL_map_leaf (labels : List String) (s : List ℕ) :
    countInternalL (s.map (fun i => TreeNode.mk (toString i) (labels.getD i "") 0 [] true))
      = 0 := by
  induction s with
  | nil => rfl
  | cons a t ih =>
    show (0 + 0) + _ = 0
    rw [ih]

/-- Invariant carried through the `while n > 3` loop. -/
def LoopInv (labels : List String) (st : NJState) : Prop :=
  st.active.length = st.size ∧ 3 ≤ st.size ∧ st.size ≤ labels.length ∧
  List.Perm (leafLabelsL st.active) labels ∧
  countInternalL st.active = labels.length - st.size ∧
  st.iterations = labels.length - st.size ∧
  st.rootStored = none

theorem loopInv_init (D : Mat) (labels : List String) (h3 : 3 ≤ labels.length) :
    LoopInv labels (initState D labels) := by
  refine ⟨?_, h3, le_refl _, ?_, ?_, by simp [initState], rfl⟩
  · simp [initState]
  · show List.Perm (leafLabelsL ((List.range labels.length).map
      (fun i => TreeNode.mk (toString i) (labels.getD i "") 0 [] true))) labels
    rw [leafLabelsL_map_leaf, map_getD_range]
  · show countInternalL ((List.range labels.length).map
      (fun i => TreeNode.mk (toString i) (labels.getD i "") 0 [] true)) = _
    rw [countInternalL_map_leaf]
    simp [initState]

theorem loopInv_loopState (D : Mat) (labels : List String) (h3 : 3 ≤ labels.length) (t : ℕ) :
    LoopInv labels (loopState (initState D labels) t) ∧
    (loopState (initState D labels) t).size = max 3 (labels.length - t) := by
  induction t with
  | zero =>
    refine ⟨loopInv_init D labels h3, ?_⟩
    show labels.length = max 3 (labels.length - 0)
    omega
  | succ t ih =>
    obtain ⟨⟨hlen, hge, hle, hperm, hint, hiter, hroot⟩, hsz⟩ := ih
    simp only [loopState]
    by_cases hguard : 3 < (loopState (initState D labels) t).size
    · rw [if_pos hguard]
      obtain ⟨hs, ha, hp, hi, hit, hr⟩ :=
        njStep_shape (loopState (initState D labels) t) hguard hlen
      refine ⟨⟨?_, ?_, ?_, ?_, ?_, ?_, ?_⟩, ?_⟩
      · rw [ha, hs]
      · omega
      · omega
      · exact hp.trans hperm
      · rw [hi, hint]
        omega
      · rw [hit, hiter]
        omega
      · rw [hr, hroot]
      · rw [hs]
        omega
    · rw [if_neg hguard]
      refine ⟨⟨hlen, hge, hle, hperm, hint, hiter, hroot⟩, ?_⟩
      omega

theorem loopState_fixed (st : NJState) (hle : st.size ≤ 3) :
    ∀ t, loopState st t = st := by
  intro t
  induction t with
  | zero => rfl
  | succ t ih =>
    simp only [loopState, ih]
    rw [if_neg (by omega)]

theorem run_reaches_three (D : Mat) (labels : List String) (h3 : 3 ≤ labels.length) :
    (runFinalState D labels).size = 3 ∧
    (runFinalState D labels).active.length = 3 ∧
    List.Perm (leafLabelsL (runFinalState D labels).active) labels ∧
    countInternalL (runFinalState D labels).active = labels.length - 3 ∧
    (runFinalState D labels).iterations = labels.length - 3 ∧
    (runFinalState D labels).rootStored = none := by
  obtain ⟨⟨hlen, _, _, hperm, hint, hiter, hroot⟩, hsz⟩ :=
    loopInv_loopState D labels h3 labels.length
  have hs3 : (runFinalState D labels).size = 3 := by
    show (loopState (initState D labels) labels.length).size = 3
    omega
  refine ⟨hs3, ?_, hperm, ?_, ?_, hroot⟩
  · show (loopState (initState D labels) labels.length).active.length = 3
    omega
  · show countInternalL (loopState (initState D labels) labels.length).active = _
    omega
  · show (loopState (initState D labels) labels.length).iterations = _
    omega

theorem build_ok_shape (D : List (List ℚ)) (labels : List String)
    (hsq : isSquareB D = true) (hlab : labels.length = D.length)
    (h3 : 3 ≤ labels.length) :
    ∃ r : BuildResult, build_nj_tree D labels = .ok r ∧
      List.Perm (leafLabels r.tree) labels ∧
      countLeaves r.tree = labels.length ∧
      countInternal r.tree = labels.length - 2 ∧
      r.iterations = labels.length - 3 ∧
      r.symmetrized = (symmetrize_step (toMat D) D.length).2 := by
  obtain ⟨hs3, hlen3, hperm, hint, hiter, _⟩ :=
    run_reaches_three ((symmetrize_step (toMat D) D.length).1) labels h3
  set st := runFinalState ((symmetrize_step (toMat D) D.length).1) labels with hst
  set root : TreeNode := TreeNode.mk "root" "root" 0
      [(st.active.getD 0 default).setDist (max 0 (0.5 * (st.mat 0 1 + st.mat 0 2 - st.mat 1 2))),
       (st.active.getD 1 default).setDist (max 0 (0.5 * (st.mat 0 1 + st.mat 1 2 - st.mat 0 2))),
       (st.active.getD 2 default).setDist (max 0 (0.5 * (st.mat 0 2 + st.mat 1 2 - st.mat 0 1)))]
      false with hroot
  have hconn : connect_final_nodes st.mat st.active = .ok root := by
    unfold connect_final_nodes
    rw [if_pos hlen3]
  have hb1 : build_nj_tree D labels
      = (match connect_final_nodes st.mat st.active with
        | .error e => .error e
        | .ok root =>
          match get_newick { st with rootStored := some root } with
          | .error e => .error e
          | .ok nw => .ok { tree := root, newick := nw, n_taxa := labels.length
                            iterations := st.iterations
                            symmetrized := (symmetrize_step (toMat D) D.length).2 }) := by
    unfold build_nj_tree
    rw [if_neg (by simp [hsq]), if_neg (by omega)]
  have hb2 : build_nj_tree D labels
      = .ok { tree := root
              newick := "(" ++ newickChildren root.children ++ ");"
              n_taxa := labels.length
              iterations := st.iterations
              symmetrized := (symmetrize_step (toMat D) D.length).2 } := by
    rw [hb1, hconn]
    rfl
  obtain ⟨x, y, z, hxyz⟩ := List.length_eq_three.mp hlen3
  have hLroot : leafLabels root = leafLabelsL st.active := by
    rw [hroot, hxyz]
    simp [leafLabels, leafLabelsL, leafLabels_setDist]
  have hCroot : countInternal root = 1 + countInternalL st.active := by
    rw [hroot, hxyz]
    simp [countInternal, countInternalL, countInternal_setDist]
  refine ⟨_, hb2, ?_, ?_, ?_, hiter, rfl⟩
  · show List.Perm (leafLabels root) labels
    rw [hLroot]
    exact hperm
  · show countLeaves root = labels.length
    rw [countLeaves_len, hLroot, List.Perm.length_eq hperm]
  · show countInternal root = labels.length - 2
    rw [hCroot, hint]
    omega

/-- C6: on every valid symmetric input of size `n ≥ 3`, the built tree has
exactly `n` leaves whose label multiset equals the input labels, exactly
`n - 2` internal nodes (the `n - 3` merge nodes plus the root), and the
reported iteration count is `n - 3`. -/
theorem claim6_output_shape (D : List (List ℚ)) (labels : List String)
    (hsq : isSquareB D = true) (hlab : labels.length = D.length)
    (h3 : 3 ≤ labels.length)
    (_hsym : ∀ i < labels.length, ∀ j < labels.length, toMat D i j = toMat D j i) :
    ∃ r : BuildResult, build_nj_tree D labels = .ok r ∧
      countLeaves r.tree = labels.length ∧
      List.Perm (leafLabels r.tree) labels ∧
      countInternal r.tree = labels.length - 2 ∧
      r.iterations = labels.length - 3 := by
  obtain ⟨r, hb, hperm, hleaves, hint, hiter, _⟩ := build_ok_shape D labels hsq hlab h3
  exact ⟨r, hb, hleaves, hperm, hint, hiter⟩

theorem claim6_output_shape_w :
    (isSquareB exampleD4 = true ∧
      (["A", "B", "C", "D"] : List String).length = exampleD4.length ∧
      3 ≤ (["A", "B", "C", "D"] : List String).length ∧
      (∀ i < (["A", "B", "C", "D"] : List String).length,
        ∀ j < (["A", "B", "C", "D"] : List String).length,
          toMat exampleD4 i j = toMat exampleD4 j i)) ∧
    ∃ r : BuildResult, build_nj_tree exampleD4 ["A", "B", "C", "D"] = .ok r ∧
      countLeaves r.tree = 4 ∧
      List.Perm (leafLabels r.tree) ["A", "B", "C", "D"] ∧
      countInternal r.tree = 2 ∧
      r.iterations = 1 := by
  refine ⟨⟨by decide, rfl, by decide, by with_unfolding_all decide⟩, ?_⟩
  exact claim6_output_shape exampleD4 ["A", "B", "C", "D"] (by decide) rfl (by decide)
    (by with_unfolding_all decide)

/-! ## C8: symmetry repair and its tolerance -/

/-- A matrix whose asymmetry (10^-6 on entries of size 1) is far above the
claimed ~10^-10 tolerance yet inside np.allclose's default tolerance. -/
def nearAsymD : List (List ℚ) := [[0, 1, 1], [1 + 1/1000000, 0, 1], [1, 1, 0]]

/-- C8 (refutation of the stated tolerance): `nearAsymD` violates
symmetry by 10^-6, far above the claimed ~1e-10 tolerance, yet the build
does not average the triangles (the asymmetric entry is processed
unchanged) and emits no advisory note. -/
theorem claim8_counterexample :
    toMat nearAsymD 0 1 ≠ toMat nearAsymD 1 0 ∧
    (symmetrize_step (toMat nearAsymD) 3).2 = false ∧
    (symmetrize_step (toMat nearAsymD) 3).1 1 0 = 1 + 1/1000000 ∧
    (toMat nearAsymD 0 1 + toMat nearAsymD 1 0) / 2 ≠ 1 + 1/1000000 ∧
    ∃ r : BuildResult, build_nj_tree nearAsymD ["A", "B", "C"] = .ok r ∧
      r.symmetrized = false := by
  have hclose : allcloseSymB (toMat nearAsymD) 3 = true := by with_unfolding_all decide
  refine ⟨by with_unfolding_all decide, by with_unfolding_all decide, ?_,
    by with_unfolding_all decide, ?_⟩
  · unfold symmetrize_step
    rw [if_pos hclose]
    rfl
  obtain ⟨r, hb, _, _, _, _, hs⟩ :=
    build_ok_shape nearAsymD ["A", "B", "C"] (by decide) rfl (by decide)
  refine ⟨r, hb, ?_⟩
  rw [hs]
  with_unfolding_all decide

/-- C8 (amended): asymmetric input never fails the build; input within
np.allclose's default tolerance (atol 1e-8, rtol 1e-5) of its transpose is
processed unchanged with no advisory note, and input beyond that tolerance
is replaced entrywise by (D + Dᵀ)/2 with the advisory note. -/
theorem claim8_amended (D : List (List ℚ)) (labels : List String)
    (hsq : isSquareB D = true) (hlab : labels.length = D.length)
    (h3 : 3 ≤ labels.length) :
    (∃ r : BuildResult, build_nj_tree D labels = .ok r ∧
      r.symmetrized = !(allcloseSymB (toMat D) D.length)) ∧
    ∀ i j, (symmetrize_step (toMat D) D.length).1 i j
        = if allcloseSymB (toMat D) D.length = true then toMat D i j
          else (toMat D i j + toMat D j i) / 2 := by
  constructor
  · obtain ⟨r, hb, _, _, _, _, hs⟩ := build_ok_shape D labels hsq hlab h3
    refine ⟨r, hb, ?_⟩
    rw [hs]
    unfold symmetrize_step
    by_cases h : allcloseSymB (toMat D) D.length = true
    · simp [h]
    · have h' : allcloseSymB (toMat D) D.length = false := by
        revert h
        cases allcloseSymB (toMat D) D.length <;> simp
      simp [h']
  · intro i j
    unfold symmetrize_step
    by_cases h : allcloseSymB (toMat D) D.length = true
    · simp [h]
    · have h' : allcloseSymB (toMat D) D.length = false := by
        revert h
        cases allcloseSymB (toMat D) D.length <;> simp
      simp [h']

/-- Clearly asymmetric 3×3 matrix (asymmetry 2 at the (0,2)/(2,0) pair). -/
def asymD3 : List (List ℚ) := [[0, 1, 2], [1, 0, 1], [4, 1, 0]]

theorem claim8_amended_w :
    (isSquareB asymD3 = true ∧ (["A", "B", "C"] : List String).length = asymD3.length ∧
      3 ≤ (["A", "B", "C"] : List String).length) ∧
    (∃ r : BuildResult, build_nj_tree asymD3 ["A", "B", "C"] = .ok r ∧
      r.symmetrized = !(allcloseSymB (toMat asymD3) asymD3.length)) ∧
    (symmetrize_step (toMat asymD3) asymD3.length).1 0 2
        = (if allcloseSymB (toMat asymD3) asymD3.length = true then toMat asymD3 0 2
           else (toMat asymD3 0 2 + toMat asymD3 2 0) / 2) := by
  refine ⟨⟨by decide, rfl, by decide⟩, ?_, ?_⟩
  · exact (claim8_amended asymD3 ["A", "B", "C"] (by decide) rfl (by decide)).1
  · exact (claim8_amended asymD3 ["A", "B", "C"] (by decide) rfl (by decide)).2 0 2

/-! ## C5: three-taxon star resolution -/

/-- C5: with exactly 3 taxa, the loop body never executes (the state is
fixed at the initial one for any number of guarded iterations), and the run
resolves the three leaves directly through the three-point formulas into a
root with branch length 0, three children, and zero iterations. -/
theorem claim5_three_taxa (D : Mat) (labels : List String)
    (h3 : labels.length = 3) :
    (∀ t, loopState (initState D labels) t = initState D labels) ∧
    njRun D labels = .ok (TreeNode.mk "root" "root" 0
      [TreeNode.mk "0" (labels.getD 0 "") (max 0 (0.5 * (D 0 1 + D 0 2 - D 1 2))) [] true,
       TreeNode.mk "1" (labels.getD 1 "") (max 0 (0.5 * (D 0 1 + D 1 2 - D 0 2))) [] true,
       TreeNode.mk "2" (labels.getD 2 "") (max 0 (0.5 * (D 0 2 + D 1 2 - D 0 1))) [] true]
      false, 0) := by
  have hfix := loopState_fixed (initState D labels)
    (by show labels.length ≤ 3; omega)
  refine ⟨hfix, ?_⟩
  obtain ⟨a, b, c, rfl⟩ := List.length_eq_three.mp h3
  have hrun : runFinalState D [a, b, c] = initState D [a, b, c] := hfix _
  show (connect_final_nodes (runFinalState D [a, b, c]).mat
      (runFinalState D [a, b, c]).active).map
      (fun r => (r, (runFinalState D [a, b, c]).iterations)) = _
  rw [hrun]
  with_unfolding_all rfl

/-- Concrete 3×3 matrix for the C5 witness. -/
def exampleD3 : List (List ℚ) := [[0, 2, 3], [2, 0, 4], [3, 4, 0]]

theorem claim5_three_taxa_w :
    ((["X", "Y", "Z"] : List String).length = 3) ∧
    loopState (initState (toMat exampleD3) ["X", "Y", "Z"]) 7
        = initState (toMat exampleD3) ["X", "Y", "Z"] ∧
    njRun (toMat exampleD3) ["X", "Y", "Z"] = .ok (TreeNode.mk "root" "root" 0
      [TreeNode.mk "0" ((["X", "Y", "Z"] : List String).getD 0 "")
        (max 0 (0.5 * (toMat exampleD3 0 1 + toMat exampleD3 0 2 - toMat exampleD3 1 2)))
        [] true,
       TreeNode.mk "1" ((["X", "Y", "Z"] : List String).getD 1 "")
        (max 0 (0.5 * (toMat exampleD3 0 1 + toMat exampleD3 1 2 - toMat exampleD3 0 2)))
        [] true,
       TreeNode.mk "2" ((["X", "Y", "Z"] : List String).getD 2 "")
        (max 0 (0.5 * (toMat exampleD3 0 2 + toMat exampleD3 1 2 - toMat exampleD3 0 1)))
        [] true]
      false, 0) := by
  refine ⟨rfl, ?_, ?_⟩
  · exact (claim5_three_taxa (toMat exampleD3) ["X", "Y", "Z"] rfl).1 7
  · exact (claim5_three_taxa (toMat exampleD3) ["X", "Y", "Z"] rfl).2

/-! ## C7: malformed input is rejected -/

theorem build_unfold (D : List (List ℚ)) (labels : List String)
    (hsq : isSquareB D = true) (hlab : labels.length = D.length) :
    build_nj_tree D labels
      = (match connect_final_nodes
            (runFinalState ((symmetrize_step (toMat D) D.length).1) labels).mat
            (runFinalState ((symmetrize_step (toMat D) D.length).1) labels).active with
        | .error e => .error e
        | .ok root =>
          match get_newick { runFinalState ((symmetrize_step (toMat D) D.length).1) labels
              with rootStored := some root } with
          | .error e => .error e
          | .ok nw => .ok { tree := root, newick := nw, n_taxa := labels.length
                            iterations := (runFinalState
                              ((symmetrize_step (toMat D) D.length).1) labels).iterations
                            symmetrized := (symmetrize_step (toMat D) D.length).2 }) := by
  unfold build_nj_tree
  rw [if_neg (by simp [hsq]), if_neg (by omega)]

theorem build_small_error (D : List (List ℚ)) (labels : List String)
    (hsq : isSquareB D = true) (hlab : labels.length = D.length)
    (h3 : labels.length < 3) :
    build_nj_tree D labels
      = .error ("Expected 3 nodes, got " ++ toString labels.length) := by
  rw [build_unfold D labels hsq hlab]
  have hfix : runFinalState ((symmetrize_step (toMat D) D.length).1) labels
      = initState ((symmetrize_step (toMat D) D.length).1) labels :=
    loopState_fixed _ (by show labels.length ≤ 3; omega) _
  rw [hfix]
  have hal : (initState ((symmetrize_step (toMat D) D.length).1) labels).active.length
      = labels.length := by
    simp [initState]
  have hconn : connect_final_nodes
      (initState ((symmetrize_step (toMat D) D.length).1) labels).mat
      (initState ((symmetrize_step (toMat D) D.length).1) labels).active
      = .error ("Expected 3 nodes, got " ++ toString labels.length) := by
    unfold connect_final_nodes
    rw [if_neg (by rw [hal]; omega), hal]
  rw [hconn]

/-- C7: every malformed input — non-square matrix, label count differing
from the dimension, or fewer than 3 taxa — makes `build_nj_tree` report an
error to the caller instead of coercing the input; in the fewer-than-3
case the iterative loop body never executes before the error. -/
theorem claim7_malformed (D : List (List ℚ)) (labels : List String)
    (h : isSquareB D = false ∨ labels.length ≠ D.length ∨ labels.length < 3) :
    (∃ e, build_nj_tree D labels = .error e) ∧
    (labels.length < 3 → ∀ (M : Mat) (t : ℕ),
      loopState (initState M labels) t = initState M labels) := by
  refine ⟨?_, ?_⟩
  · by_cases hsq : isSquareB D = false
    · exact ⟨"Distance matrix must be square", by unfold build_nj_tree; rw [if_pos hsq]⟩
    · have hsq' : isSquareB D = true := by
        revert hsq
        cases isSquareB D <;> simp
      by_cases hlab : labels.length ≠ D.length
      · refine ⟨"Number of labels must match matrix dimension", ?_⟩
        unfold build_nj_tree
        rw [if_neg hsq, if_pos hlab]
      · have hlen : labels.length = D.length := not_not.mp hlab
        have h3 : labels.length < 3 := by
          rcases h with h | h | h
          · exact absurd h hsq
          · exact absurd h hlab
          · exact h
        exact ⟨_, build_small_error D labels hsq' hlen h3⟩
  · intro hlen M t
    exact loopState_fixed _ (by show labels.length ≤ 3; omega) t

theorem claim7_malformed_w :
    ((["A"] : List String).length < 3) ∧
    (∃ e, build_nj_tree [[0]] ["A"] = .error e) ∧
    loopState (initState (toMat [[0]]) ["A"]) 5 = initState (toMat [[0]]) ["A"] := by
  have h := claim7_malformed [[0]] ["A"] (Or.inr (Or.inr (by decide)))
  exact ⟨by decide, h.1, h.2 (by decide) (toMat [[0]]) 5⟩

/-! ## C10: get_newick needs the root entry that only the wrapper stores -/

/-- C10: `get_newick` fails with "Tree not yet constructed" exactly when
the `"root"` slot of the nodes dict is empty, and succeeds otherwise; the
run loop never fills that slot (so after `run` on a bare instance the slot
is still empty), while `build_nj_tree`'s result serializes the tree it
stored there. -/
theorem claim10_newick_root :
    (∀ st : NJState, st.rootStored = none →
      get_newick st = .error "Tree not yet constructed. Call run() first.") ∧
    (∀ (st : NJState) (root : TreeNode), st.rootStored = some root →
      get_newick st = .ok ("(" ++ newickChildren root.children ++ ");")) ∧
    (∀ (D : Mat) (labels : List String) (t : ℕ),
      (loopState (initState D labels) t).rootStored = none) ∧
    (∀ (D : List (List ℚ)) (labels : List String) (r : BuildResult),
      build_nj_tree D labels = .ok r →
      r.newick = "(" ++ newickChildren r.tree.children ++ ");") := by
  refine ⟨?_, ?_, ?_, ?_⟩
  · intro st h
    unfold get_newick
    rw [h]
  · intro st root h
    unfold get_newick
    rw [h]
  · intro D labels t
    induction t with
    | zero => rfl
    | succ t ih =>
      simp only [loopState]
      by_cases hguard : 3 < (loopState (initState D labels) t).size
      · rw [if_pos hguard]
        show (loopState (initState D labels) t).rootStored = none
        exact ih
      · rw [if_neg hguard]
        exact ih
  · intro D labels r hb
    by_cases hsq : isSquareB D = false
    · unfold build_nj_tree at hb
      rw [if_pos hsq] at hb
      cases hb
    · have hsq' : isSquareB D = true := by
        revert hsq
        cases isSquareB D <;> simp
      by_cases hlab : labels.length ≠ D.length
      · unfold build_nj_tree at hb
        rw [if_neg hsq, if_pos hlab] at hb
        cases hb
      · have hlen : labels.length = D.length := not_not.mp hlab
        rw [build_unfold D labels hsq' hlen] at hb
        split at hb
        · cases hb
        · rename_i root hconn
          simp only [get_newick] at hb
          cases hb
          rfl

theorem claim10_newick_root_w :
    (runFinalState (toMat exampleD4) ["A", "B", "C", "D"]).rootStored = none ∧
    get_newick (runFinalState (toMat exampleD4) ["A", "B", "C", "D"])
        = .error "Tree not yet constructed. Call run() first." := by
  have h3 := claim10_newick_root.2.2.1 (toMat exampleD4) ["A", "B", "C", "D"] 4
  exact ⟨h3, claim10_newick_root.1 _ h3⟩
